import Mathlib

/-!
Shallow embedding of `math/extrapolate.py` (Py-Utils).

The Python module guesses the next term of an integer sequence by building
"difference-like" tables under a per-level operation schedule, walking the
table back up through inverse operations, and enumerating a fixed
three-operation palette.

Python exceptions are modelled with `Except Err`: `Err.zeroDivision` stands
for `ZeroDivisionError` (the only exception `solve_seq` catches) and
`Err.index` for `IndexError` (out-of-range list access, which `solve_seq`
does not catch).  Python integers are `Int`; Python `//` is floor division,
i.e. `Int.fdiv`.
-/

set_option autoImplicit false

namespace Extrapolate

inductive Err where
  | zeroDivision
  | index
deriving DecidableEq, Repr

instance exceptDecEq {ε α : Type} [DecidableEq ε] [DecidableEq α] :
    DecidableEq (Except ε α) := fun x y =>
  match x, y with
  | .ok a, .ok b =>
    if h : a = b then isTrue (by rw [h])
    else isFalse (fun q => h (by cases q; rfl))
  | .ok _, .error _ => isFalse (fun q => Except.noConfusion q)
  | .error _, .ok _ => isFalse (fun q => Except.noConfusion q)
  | .error e, .error f =>
    if h : e = f then isTrue (by rw [h])
    else isFalse (fun q => h (by cases q; rfl))

/-- Exception propagation: run the continuation on a normal value, let a
raised exception fly past it (Python's implicit control flow). -/
def bindE {α β : Type} : Except Err α → (α → Except Err β) → Except Err β
  | .ok a, k => k a
  | .error e, _ => .error e

@[simp] theorem bindE_ok {α β : Type} (a : α) (k : α → Except Err β) :
    bindE (.ok a) k = k a := rfl

@[simp] theorem bindE_error {α β : Type} (e : Err) (k : α → Except Err β) :
    bindE (.error e) k = .error e := rfl

/-- A binary operation `(prior, current) -> value`, possibly raising. -/
abbrev Op := Int → Int → Except Err Int

/-- Python list indexing `l[i]` for `0 <= i`: raises `IndexError` out of range. -/
def idx {α : Type} (l : List α) (i : Nat) : Except Err α :=
  match l[i]? with
  | some x => .ok x
  | none => .error .index

/-- Python `l[-1]`: last element, raising `IndexError` on the empty list. -/
def lastE {α : Type} (l : List α) : Except Err α :=
  match l.getLast? with
  | some x => .ok x
  | none => .error .index

/-- `is_constant(s)`: `all([s[0] == s[i] for i in range(1, len(s))])`. -/
def is_constant (s : List Int) : Bool :=
  match s with
  | [] => true
  | x :: xs => xs.all (fun y => y == x)

/-- `get_subseq(s, op)`: `[op(s[i-1], s[i]) for i in range(1, len(s))]`,
left to right, propagating the first exception. -/
def get_subseq (s : List Int) (op : Op) : Except Err (List Int) :=
  match s with
  | [] => .ok []
  | [_] => .ok []
  | a :: b :: rest =>
    bindE (op a b) fun v =>
      bindE (get_subseq (b :: rest) op) fun vs =>
        .ok (v :: vs)

theorem get_subseq_length : ∀ (s : List Int) (op : Op) (t : List Int),
    get_subseq s op = Except.ok t → t.length = s.length - 1
  | [], _, t, h => by
      simp only [get_subseq, Except.ok.injEq] at h
      simp [← h]
  | [_], _, t, h => by
      simp only [get_subseq, Except.ok.injEq] at h
      simp [← h]
  | a :: b :: rest, op, t, h => by
      simp only [get_subseq] at h
      cases hop : op a b with
      | error e => rw [hop] at h; exact absurd h (by simp)
      | ok v =>
        rw [hop] at h
        cases hrec : get_subseq (b :: rest) op with
        | error e => rw [hrec] at h; exact absurd h (by simp)
        | ok vs =>
          rw [hrec] at h
          have := get_subseq_length (b :: rest) op vs hrec
          simp only [bindE_ok, Except.ok.injEq] at h
          subst h
          simp [this]

/-- The duck-typed schedule parameter: either a single operation
(`not isinstance(ops, Iterable)`) or an explicit list. -/
inductive Schedule where
  | single (op : Op)
  | list (ops : List Op)

/-- `[ops for _ in range(n)]` expansion of a single operation; a list is
used as given. -/
def Schedule.expand : Schedule → Nat → List Op
  | .single op, n => List.replicate n op
  | .list ops, _ => ops

/-- The `while` loop of `get_subseqs`: given the most recent row `last`
(already part of the table) and the next schedule position `i`, returns the
rows appended after `last`.

The recursion is structural on a `fuel` bound so that concrete instances
compute: each appended row is exactly one element shorter than the row it
came from (`get_subseq_length`), so the loop body runs fewer than
`last.length` times.  `get_subseqs` calls this with `fuel = last.length`;
under that discipline `fuel = 0` forces `last = []`, where the loop's own
stopping test `is_constant last` is already true, so returning `.ok []`
agrees with the Python loop (`get_subseqs_loop_fuel_irrel` makes the
independence from the fuel precise). -/
def get_subseqs_loop (ops : List Op) : Nat → List Int → Nat → Except Err (List (List Int))
  | 0, _, _ => .ok []
  | fuel + 1, last, i =>
    if is_constant last = true ∨ last.length ≤ 1 then .ok []
    else
      bindE (idx ops i) fun op =>
        bindE (get_subseq last op) fun next =>
          bindE (get_subseqs_loop ops fuel next (i + 1)) fun rest =>
            .ok (next :: rest)

/-- Any fuel of at least `last.length` gives the same loop result, so the
fuel in `get_subseqs_loop` is not semantically load-bearing. -/
theorem get_subseqs_loop_fuel_irrel (ops : List Op) :
    ∀ (f₁ : Nat) (f₂ : Nat) (last : List Int) (i : Nat),
      last.length ≤ f₁ → last.length ≤ f₂ →
      get_subseqs_loop ops f₁ last i = get_subseqs_loop ops f₂ last i := by
  intro f₁
  induction f₁ with
  | zero =>
    intro f₂ last i h₁ _
    have hlast : last = [] := List.length_eq_zero.mp (Nat.le_zero.mp h₁)
    subst hlast
    cases f₂ with
    | zero => rfl
    | succ f => simp [get_subseqs_loop, is_constant]
  | succ f ih =>
    intro f₂ last i _ h₂
    cases f₂ with
    | zero =>
      have hlast : last = [] := List.length_eq_zero.mp (Nat.le_zero.mp h₂)
      subst hlast
      simp [get_subseqs_loop, is_constant]
    | succ g =>
      simp only [get_subseqs_loop]
      by_cases hstop : is_constant last = true ∨ last.length ≤ 1
      · simp [hstop]
      · simp only [hstop, if_false]
        cases idx ops i with
        | error e => rfl
        | ok op =>
          simp only [bindE_ok]
          cases hsub : get_subseq last op with
          | error e => rfl
          | ok next =>
            have hlen := get_subseq_length last op next hsub
            rw [not_or] at hstop
            have h2 := hstop.2
            simp only [bindE_ok]
            rw [ih g next (i + 1) (by omega) (by omega)]

/-- `get_subseqs(s, ops)`: the table of subsequences.  Returns `[]` for
sequences shorter than 2; otherwise expands the schedule, puts
`get_subseq(s, ops[0])` as row 0 and runs the `while` loop. -/
def get_subseqs (s : List Int) (sch : Schedule) : Except Err (List (List Int)) :=
  if s.length < 2 then .ok []
  else
    bindE (idx (sch.expand (s.length - 1)) 0) fun op0 =>
      bindE (get_subseq s op0) fun first =>
        bindE (get_subseqs_loop (sch.expand (s.length - 1)) first.length first 1) fun rest =>
          .ok (first :: rest)

/-- The `for i in reversed(range(1, len(ss)))` loop of `next_item`:
`r = invops[i](ss[i-1][-1], r)` with `i` counting down to 1. -/
def next_loop (ss : List (List Int)) (invs : List Op) : Nat → Int → Except Err Int
  | 0, r => .ok r
  | j + 1, r =>
    bindE (idx invs (j + 1)) fun inv =>
      bindE (idx ss j) fun row =>
        bindE (lastE row) fun v =>
          bindE (inv v r) fun r2 =>
            next_loop ss invs j r2

/-- `next_item(s, ops, invops)`: rebuilds the table, seeds from
`ss[-1][-1]`, walks the inverses back up and finishes with
`invops[0](s[-1], r)`. -/
def next_item (s : List Int) (ops invops : Schedule) : Except Err Int :=
  bindE (get_subseqs s ops) fun ss =>
    bindE (lastE ss) fun lastRow =>
      bindE (lastE lastRow) fun r0 =>
        let invs := invops.expand (s.length - 1)
        bindE (next_loop ss invs (ss.length - 1) r0) fun r =>
          bindE (idx invs 0) fun inv0 =>
            bindE (lastE s) fun sl =>
              inv0 sl r

/-- `sub = lambda a, b: b - a` (pure part). -/
def subFn (a b : Int) : Int := b - a

/-- `add = lambda a, b: b + a` (pure part). -/
def addFn (a b : Int) : Int := b + a

/-- `mul = lambda a, b: b * a` (pure part). -/
def mulFn (a b : Int) : Int := b * a

/-- `flip = lambda a, b: -a if a else -b` (pure part). -/
def flipFn (a b : Int) : Int := if a ≠ 0 then -a else -b

def subOp : Op := fun a b => .ok (subFn a b)

def addOp : Op := fun a b => .ok (addFn a b)

/-- `div = lambda a, b: b // a`: floor division, `ZeroDivisionError` when
`a == 0`. -/
def divOp : Op := fun a b =>
  if a = 0 then .error .zeroDivision else .ok (Int.fdiv b a)

def mulOp : Op := fun a b => .ok (mulFn a b)

def flipOp : Op := fun a b => .ok (flipFn a b)

/-- `itertools.product(pal, repeat=n)` as a list of length-`n` lists, first
position varying slowest. -/
def productN {α : Type} (pal : List α) : Nat → List (List α)
  | 0 => [[]]
  | n + 1 => pal.flatMap fun x => (productN pal n).map (fun t => x :: t)

/-- The `for ops, invs in zip(allops, allinvs)` loop of `solve_seq`:
add successful predictions to the set, skip `ZeroDivisionError`,
propagate anything else. -/
def solve_loop (s : List Int) :
    List (List Op × List Op) → Finset Int → Except Err (Finset Int)
  | [], acc => .ok acc
  | p :: rest, acc =>
    match next_item s (.list p.1) (.list p.2) with
    | .ok v => solve_loop s rest (insert v acc)
    | .error .zeroDivision => solve_loop s rest acc
    | .error .index => .error .index

/-- `solve_seq(s)`: zips the two independently enumerated Cartesian products
of the palette and of the inverse palette and collects successful
predictions. -/
def solve_seq (s : List Int) : Except Err (Finset Int) :=
  solve_loop s
    ((productN [subOp, divOp, flipOp] (s.length - 1)).zip
      (productN [addOp, mulOp, flipOp] (s.length - 1))) ∅

/-! ### Basic lemmas about the primitive accessors and operations -/

/-- An operation that never raises `IndexError` itself (every palette
operation: they raise at most `ZeroDivisionError`). -/
def Op.noIdx (op : Op) : Prop := ∀ a b, op a b ≠ .error .index

theorem subOp_noIdx : Op.noIdx subOp := fun _ _ => by simp [subOp]

theorem addOp_noIdx : Op.noIdx addOp := fun _ _ => by simp [addOp]

theorem mulOp_noIdx : Op.noIdx mulOp := fun _ _ => by simp [mulOp]

theorem flipOp_noIdx : Op.noIdx flipOp := fun _ _ => by simp [flipOp]

theorem divOp_noIdx : Op.noIdx divOp := by
  intro a b
  by_cases h : a = 0 <;> simp [divOp, h]

theorem idx_ok_of_lt {α : Type} (l : List α) (i : Nat) (h : i < l.length) :
    ∃ x, idx l i = .ok x ∧ x ∈ l := by
  have hg := List.getElem?_eq_getElem h
  exact ⟨l[i], by simp [idx, hg], List.getElem_mem h⟩

theorem idx_mem {α : Type} {l : List α} {i : Nat} {x : α}
    (h : idx l i = .ok x) : x ∈ l := by
  unfold idx at h
  cases hg : l[i]? with
  | none => rw [hg] at h; exact absurd h (by simp)
  | some y =>
    rw [hg] at h
    cases h
    exact List.getElem?_mem hg

theorem lastE_ok_of_ne_nil {α : Type} (l : List α) (h : l ≠ []) :
    ∃ x, lastE l = .ok x ∧ x ∈ l := by
  rcases List.getLast?_eq_getLast l h with hg
  exact ⟨l.getLast h, by simp [lastE, hg], List.getLast_mem h⟩

theorem get_subseq_no_index (op : Op) (hop : Op.noIdx op) :
    ∀ s : List Int, get_subseq s op ≠ .error .index
  | [] => by simp [get_subseq]
  | [_] => by simp [get_subseq]
  | a :: b :: rest => by
    simp only [get_subseq]
    cases hab : op a b with
    | error e =>
      have : e ≠ .index := fun he => hop a b (he ▸ hab)
      simp [this]
    | ok v =>
      simp only [bindE_ok]
      cases hrec : get_subseq (b :: rest) op with
      | error e =>
        have : e ≠ .index := fun he => get_subseq_no_index op hop (b :: rest) (he ▸ hrec)
        simp [this]
      | ok vs => simp

/-- `get_subseqs` on a sequence shorter than two elements is the empty
table, whatever the schedule. -/
theorem get_subseqs_nil (s : List Int) (sch : Schedule) (h : s.length < 2) :
    get_subseqs s sch = .ok [] := by
  simp [get_subseqs, h]

/-! ### Invariants of the table-building loop -/

/-- Each row is exactly one element shorter than the row it came from. -/
def chain : List Int → List (List Int) → Prop
  | _, [] => True
  | cur, nxt :: rest => nxt.length + 1 = cur.length ∧ chain nxt rest

/-- The loop's exit discipline: every row it stepped past was non-constant
with more than one element, and the final row is constant or short. -/
def rowsGood : List Int → List (List Int) → Prop
  | cur, [] => is_constant cur = true ∨ cur.length ≤ 1
  | cur, nxt :: rest => ¬(is_constant cur = true ∨ cur.length ≤ 1) ∧ rowsGood nxt rest

theorem get_subseqs_loop_shape (ops : List Op) :
    ∀ (fuel : Nat) (last : List Int) (i : Nat) (rest : List (List Int)),
      last.length ≤ fuel →
      get_subseqs_loop ops fuel last i = .ok rest →
      chain last rest ∧ rowsGood last rest ∧ rest.length ≤ last.length - 1 ∧
        (1 ≤ last.length → ∀ r ∈ rest, 1 ≤ r.length) := by
  intro fuel
  induction fuel with
  | zero =>
    intro last i rest hle hok
    have hlast : last = [] := List.length_eq_zero.mp (Nat.le_zero.mp hle)
    subst hlast
    simp only [get_subseqs_loop, Except.ok.injEq] at hok
    subst hok
    exact ⟨trivial, Or.inl rfl, by simp, by simp⟩
  | succ f ih =>
    intro last i rest hle hok
    simp only [get_subseqs_loop] at hok
    by_cases hstop : is_constant last = true ∨ last.length ≤ 1
    · rw [if_pos hstop] at hok
      simp only [Except.ok.injEq] at hok
      subst hok
      exact ⟨trivial, hstop, by simp, by simp⟩
    · rw [if_neg hstop] at hok
      cases hidx : idx ops i with
      | error e => rw [hidx] at hok; exact absurd hok (by simp)
      | ok op =>
        rw [hidx] at hok
        simp only [bindE_ok] at hok
        cases hsub : get_subseq last op with
        | error e => rw [hsub] at hok; exact absurd hok (by simp)
        | ok next =>
          rw [hsub] at hok
          simp only [bindE_ok] at hok
          cases hloop : get_subseqs_loop ops f next (i + 1) with
          | error e => rw [hloop] at hok; exact absurd hok (by simp)
          | ok rest' =>
            rw [hloop] at hok
            simp only [bindE_ok, Except.ok.injEq] at hok
            subst hok
            have hlen := get_subseq_length last op next hsub
            have hgt : 1 < last.length := by
              rw [not_or] at hstop
              omega
            obtain ⟨hch, hgood, hcnt, hne⟩ :=
              ih next (i + 1) rest' (by omega) hloop
            refine ⟨⟨by omega, hch⟩, ⟨hstop, hgood⟩,
              by simp only [List.length_cons]; omega, ?_⟩
            intro _ r hr
            rcases List.mem_cons.mp hr with hr | hr
            · subst hr; omega
            · exact hne (by omega) r hr

theorem get_subseqs_loop_no_index (ops : List Op)
    (hops : ∀ op ∈ ops, Op.noIdx op) :
    ∀ (fuel : Nat) (last : List Int) (i : Nat),
      last.length ≤ fuel → i + (last.length - 1) ≤ ops.length →
      get_subseqs_loop ops fuel last i ≠ .error .index := by
  intro fuel
  induction fuel with
  | zero => intro last i _ _; simp [get_subseqs_loop]
  | succ f ih =>
    intro last i hle hbound
    simp only [get_subseqs_loop]
    by_cases hstop : is_constant last = true ∨ last.length ≤ 1
    · rw [if_pos hstop]; simp
    · rw [if_neg hstop]
      have hgt : 1 < last.length := by
        rw [not_or] at hstop
        omega
      obtain ⟨op, hidx, hmem⟩ := idx_ok_of_lt ops i (by omega)
      rw [hidx]
      simp only [bindE_ok]
      cases hsub : get_subseq last op with
      | error e =>
        have hni := get_subseq_no_index op (hops op hmem) last
        intro hc
        cases hc
        exact hni hsub
      | ok next =>
        simp only [bindE_ok]
        have hlen := get_subseq_length last op next hsub
        cases hloop : get_subseqs_loop ops f next (i + 1) with
        | error e =>
          have hni := ih next (i + 1) (by omega) (by omega)
          intro hc
          cases hc
          exact hni hloop
        | ok rest => simp

/-- Inversion of a successful `get_subseqs` on a sequence of length ≥ 2. -/
theorem get_subseqs_ok_inv (s : List Int) (sch : Schedule) (rows : List (List Int))
    (h2 : 2 ≤ s.length) (hok : get_subseqs s sch = .ok rows) :
    ∃ op0 first rest,
      idx (sch.expand (s.length - 1)) 0 = .ok op0 ∧
      get_subseq s op0 = .ok first ∧
      get_subseqs_loop (sch.expand (s.length - 1)) first.length first 1 = .ok rest ∧
      rows = first :: rest := by
  unfold get_subseqs at hok
  rw [if_neg (by omega)] at hok
  cases hidx : idx (sch.expand (s.length - 1)) 0 with
  | error e => rw [hidx] at hok; exact absurd hok (by simp)
  | ok op0 =>
    rw [hidx] at hok
    simp only [bindE_ok] at hok
    cases hsub : get_subseq s op0 with
    | error e => rw [hsub] at hok; exact absurd hok (by simp)
    | ok first =>
      rw [hsub] at hok
      simp only [bindE_ok] at hok
      cases hloop : get_subseqs_loop (sch.expand (s.length - 1)) first.length first 1 with
      | error e => rw [hloop] at hok; exact absurd hok (by simp)
      | ok rest =>
        rw [hloop] at hok
        simp only [bindE_ok, Except.ok.injEq] at hok
        exact ⟨op0, first, rest, rfl, hsub, hloop, hok.symm⟩

theorem get_subseqs_no_index (s : List Int) (sch : Schedule)
    (hlen : (sch.expand (s.length - 1)).length = s.length - 1)
    (hops : ∀ op ∈ sch.expand (s.length - 1), Op.noIdx op) :
    get_subseqs s sch ≠ .error .index := by
  by_cases h2 : s.length < 2
  · rw [get_subseqs_nil s sch h2]; simp
  · unfold get_subseqs
    rw [if_neg h2]
    obtain ⟨op0, hidx, hmem⟩ := idx_ok_of_lt (sch.expand (s.length - 1)) 0 (by omega)
    rw [hidx]
    simp only [bindE_ok]
    cases hsub : get_subseq s op0 with
    | error e =>
      have hni := get_subseq_no_index op0 (hops op0 hmem) s
      intro hc
      cases hc
      exact hni hsub
    | ok first =>
      simp only [bindE_ok]
      have hflen := get_subseq_length s op0 first hsub
      cases hloop : get_subseqs_loop (sch.expand (s.length - 1)) first.length first 1 with
      | error e =>
        have hni := get_subseqs_loop_no_index (sch.expand (s.length - 1)) hops
          first.length first 1 (Nat.le_refl _) (by omega)
        intro hc
        cases hc
        exact hni hloop
      | ok rest => simp

theorem chain_getD : ∀ (rest : List (List Int)) (cur : List Int), chain cur rest →
    ∀ i, i + 1 < (cur :: rest).length →
      ((cur :: rest).getD (i + 1) []).length + 1 = ((cur :: rest).getD i []).length := by
  intro rest
  induction rest with
  | nil =>
    intro cur _ i hi
    simp at hi
  | cons nxt rest ih =>
    intro cur hch i hi
    cases i with
    | zero => simpa using hch.1
    | succ j =>
      have := ih nxt hch.2 j (by simpa using hi)
      simpa using this

theorem rowsGood_getLast : ∀ (rest : List (List Int)) (cur : List Int), rowsGood cur rest →
    ∀ lastRow, (cur :: rest).getLast? = some lastRow →
      is_constant lastRow = true ∨ lastRow.length ≤ 1 := by
  intro rest
  induction rest with
  | nil =>
    intro cur hgood lastRow hlast
    simp only [List.getLast?_singleton, Option.some.injEq] at hlast
    subst hlast
    exact hgood
  | cons nxt rest ih =>
    intro cur hgood lastRow hlast
    rw [List.getLast?_cons_cons] at hlast
    exact ih nxt hgood.2 lastRow hlast

theorem rowsGood_before : ∀ (rest : List (List Int)) (cur : List Int), rowsGood cur rest →
    ∀ i, i + 1 < (cur :: rest).length →
      is_constant ((cur :: rest).getD i []) = false ∧
        1 < ((cur :: rest).getD i []).length := by
  intro rest
  induction rest with
  | nil =>
    intro cur _ i hi
    simp at hi
  | cons nxt rest ih =>
    intro cur hgood i hi
    cases i with
    | zero =>
      have h1 := hgood.1
      rw [not_or] at h1
      refine ⟨by simpa using Bool.not_eq_true _ |>.mp h1.1, by simpa using by omega⟩
    | succ j =>
      have := ih nxt hgood.2 j (by simpa using hi)
      simpa using this

/-! ### `next_item` never raises `IndexError` on adequate inputs -/

theorem next_loop_no_index (ss : List (List Int)) (invs : List Op)
    (hinvs : ∀ op ∈ invs, Op.noIdx op) (hrows : ∀ row ∈ ss, 1 ≤ row.length)
    (hlen : ss.length ≤ invs.length) :
    ∀ (j : Nat) (r : Int), j + 1 ≤ ss.length →
      next_loop ss invs j r ≠ .error .index := by
  intro j
  induction j with
  | zero => intro r _; simp [next_loop]
  | succ k ih =>
    intro r hj
    simp only [next_loop]
    obtain ⟨inv, hinv, hmeminv⟩ := idx_ok_of_lt invs (k + 1) (by omega)
    rw [hinv]
    simp only [bindE_ok]
    obtain ⟨row, hrow, hmemrow⟩ := idx_ok_of_lt ss k (by omega)
    rw [hrow]
    simp only [bindE_ok]
    have hrne : row ≠ [] := by
      have := hrows row hmemrow
      intro hn
      subst hn
      simp at this
    obtain ⟨v, hv, _⟩ := lastE_ok_of_ne_nil row hrne
    rw [hv]
    simp only [bindE_ok]
    cases hi : inv v r with
    | error e =>
      intro hc
      cases hc
      exact hinvs inv hmeminv v r hi
    | ok r2 =>
      simp only [bindE_ok]
      exact ih r2 (by omega)

theorem next_item_no_index (s : List Int) (ops invs : List Op)
    (h2 : 2 ≤ s.length) (hol : ops.length = s.length - 1)
    (hil : invs.length = s.length - 1)
    (hops : ∀ op ∈ ops, Op.noIdx op) (hinvs : ∀ op ∈ invs, Op.noIdx op) :
    next_item s (.list ops) (.list invs) ≠ .error .index := by
  unfold next_item
  cases hss : get_subseqs s (.list ops) with
  | error e =>
    have hni := get_subseqs_no_index s (.list ops)
      (by simpa [Schedule.expand] using hol)
      (by simpa [Schedule.expand] using hops)
    intro hc
    cases hc
    exact hni hss
  | ok ss =>
    obtain ⟨op0, first, rest, _, hsub0, hloop, hss_eq⟩ :=
      get_subseqs_ok_inv s (.list ops) ss h2 hss
    subst hss_eq
    have hflen := get_subseq_length s op0 first hsub0
    obtain ⟨_, _, hcnt, hne⟩ :=
      get_subseqs_loop_shape (Schedule.expand (.list ops) (s.length - 1))
        first.length first 1 rest (Nat.le_refl _) hloop
    have hrows : ∀ row ∈ first :: rest, 1 ≤ row.length := by
      intro row hrow
      rcases List.mem_cons.mp hrow with hrow | hrow
      · subst hrow; omega
      · exact hne (by omega) row hrow
    have hsslen : (first :: rest).length ≤ s.length - 1 := by
      simp only [List.length_cons]
      omega
    simp only [bindE_ok]
    obtain ⟨lastRow, hlast, hmemlast⟩ :=
      lastE_ok_of_ne_nil (first :: rest) (by simp)
    rw [hlast]
    simp only [bindE_ok]
    obtain ⟨r0, hr0, _⟩ := lastE_ok_of_ne_nil lastRow (by
      have := hrows lastRow hmemlast
      intro hn
      subst hn
      simp at this)
    rw [hr0]
    simp only [bindE_ok]
    have hexp : Schedule.expand (.list invs) (s.length - 1) = invs := rfl
    rw [hexp]
    cases hnl : next_loop (first :: rest) invs ((first :: rest).length - 1) r0 with
    | error e =>
      have hni := next_loop_no_index (first :: rest) invs hinvs hrows
        (by omega) ((first :: rest).length - 1) r0 (by simp)
      intro hc
      cases hc
      exact hni hnl
    | ok r =>
      simp only [bindE_ok]
      obtain ⟨inv0, hinv0, hmeminv0⟩ := idx_ok_of_lt invs 0 (by omega)
      rw [hinv0]
      simp only [bindE_ok]
      obtain ⟨sl, hsl, _⟩ := lastE_ok_of_ne_nil s (by
        intro hn
        subst hn
        simp at h2)
      rw [hsl]
      simp only [bindE_ok]
      exact hinvs inv0 hmeminv0 sl r

/-! ### The solver's enumeration -/

theorem mem_productN_length {α : Type} (pal : List α) :
    ∀ (n : Nat) (l : List α), l ∈ productN pal n → l.length = n := by
  intro n
  induction n with
  | zero =>
    intro l hl
    simp only [productN, List.mem_singleton] at hl
    subst hl
    rfl
  | succ m ih =>
    intro l hl
    simp only [productN, List.mem_flatMap, List.mem_map] at hl
    obtain ⟨x, _, t, ht, hl⟩ := hl
    subst hl
    simp [ih t ht]

theorem mem_productN_mem {α : Type} (pal : List α) :
    ∀ (n : Nat) (l : List α), l ∈ productN pal n → ∀ x ∈ l, x ∈ pal := by
  intro n
  induction n with
  | zero =>
    intro l hl
    simp only [productN, List.mem_singleton] at hl
    subst hl
    simp
  | succ m ih =>
    intro l hl
    simp only [productN, List.mem_flatMap, List.mem_map] at hl
    obtain ⟨x, hx, t, ht, hl⟩ := hl
    subst hl
    intro y hy
    rcases List.mem_cons.mp hy with hy | hy
    · subst hy; exact hx
    · exact ih t ht y hy

theorem productN_map {α β : Type} (pal : List α) (f : α → β) :
    ∀ n, productN (pal.map f) n = (productN pal n).map (List.map f) := by
  intro n
  induction n with
  | zero => rfl
  | succ m ih =>
    simp only [productN, ih, List.flatMap_map, List.map_flatMap]
    congr 1
    funext x
    simp [List.map_map, Function.comp]

theorem solve_loop_ok (s : List Int) :
    ∀ (ps : List (List Op × List Op)) (acc : Finset Int),
      (∀ p ∈ ps, next_item s (.list p.1) (.list p.2) ≠ .error .index) →
      ∃ A, solve_loop s ps acc = .ok A := by
  intro ps
  induction ps with
  | nil => intro acc _; exact ⟨acc, rfl⟩
  | cons p rest ih =>
    intro acc hps
    simp only [solve_loop]
    cases hni : next_item s (.list p.1) (.list p.2) with
    | ok v => exact ih (insert v acc) fun q hq => hps q (List.mem_cons_of_mem p hq)
    | error e =>
      cases e with
      | zeroDivision => exact ih acc fun q hq => hps q (List.mem_cons_of_mem p hq)
      | index => exact absurd hni (hps p (List.mem_cons_self p rest))

theorem solve_loop_mem (s : List Int) :
    ∀ (ps : List (List Op × List Op)) (acc A : Finset Int) (v : Int),
      solve_loop s ps acc = .ok A →
      (v ∈ A ↔ v ∈ acc ∨
        ∃ p ∈ ps, next_item s (.list p.1) (.list p.2) = .ok v) := by
  intro ps
  induction ps with
  | nil =>
    intro acc A v hok
    simp only [solve_loop, Except.ok.injEq] at hok
    subst hok
    simp
  | cons p rest ih =>
    intro acc A v hok
    simp only [solve_loop] at hok
    cases hni : next_item s (.list p.1) (.list p.2) with
    | ok w =>
      rw [hni] at hok
      rw [ih (insert w acc) A v hok]
      constructor
      · rintro (hv | ⟨q, hq, hqv⟩)
        · rcases Finset.mem_insert.mp hv with hv | hv
          · subst hv
            exact Or.inr ⟨p, List.mem_cons_self p rest, hni⟩
          · exact Or.inl hv
        · exact Or.inr ⟨q, List.mem_cons_of_mem p hq, hqv⟩
      · rintro (hv | ⟨q, hq, hqv⟩)
        · exact Or.inl (Finset.mem_insert_of_mem hv)
        · rcases List.mem_cons.mp hq with hq | hq
          · subst hq
            rw [hni] at hqv
            cases hqv
            exact Or.inl (Finset.mem_insert_self v acc)
          · exact Or.inr ⟨q, hq, hqv⟩
    | error e =>
      rw [hni] at hok
      cases e with
      | index => exact absurd hok (by simp)
      | zeroDivision =>
        rw [ih acc A v hok]
        constructor
        · rintro (hv | ⟨q, hq, hqv⟩)
          · exact Or.inl hv
          · exact Or.inr ⟨q, List.mem_cons_of_mem p hq, hqv⟩
        · rintro (hv | ⟨q, hq, hqv⟩)
          · exact Or.inl hv
          · rcases List.mem_cons.mp hq with hq | hq
            · subst hq
              rw [hni] at hqv
              exact absurd hqv (by simp)
            · exact Or.inr ⟨q, hq, hqv⟩

/-- The three palette operation kinds of `solve_seq`, tagged. -/
inductive PalOp where
  | sub
  | div
  | flip
deriving DecidableEq, Repr

/-- The operation a palette tag stands for. -/
def PalOp.op : PalOp → Op
  | .sub => subOp
  | .div => divOp
  | .flip => flipOp

/-- The inverse paired with a palette tag at the same palette index. -/
def PalOp.inv : PalOp → Op
  | .sub => addOp
  | .div => mulOp
  | .flip => flipOp

theorem palette_ops_eq : [subOp, divOp, flipOp] =
    [PalOp.sub, PalOp.div, PalOp.flip].map PalOp.op := rfl

theorem palette_invs_eq : [addOp, mulOp, flipOp] =
    [PalOp.sub, PalOp.div, PalOp.flip].map PalOp.inv := rfl

/-- The spec's reading of the enumeration: a single Cartesian product of
palette tags, with the inverse schedule obtained from the operation
schedule by the element-wise palette-inverse lookup. -/
def solve_spec (s : List Int) : Except Err (Finset Int) :=
  solve_loop s
    ((productN [PalOp.sub, PalOp.div, PalOp.flip] (s.length - 1)).map
      (fun l => (l.map PalOp.op, l.map PalOp.inv))) ∅

theorem solve_seq_eq_solve_spec (s : List Int) : solve_seq s = solve_spec s := by
  unfold solve_seq solve_spec
  rw [palette_ops_eq, palette_invs_eq, productN_map, productN_map,
    List.zip_map']

theorem palette_noIdx : ∀ op ∈ [subOp, divOp, flipOp], Op.noIdx op := by
  intro op hop
  rcases List.mem_cons.mp hop with h | hop
  · subst h; exact subOp_noIdx
  rcases List.mem_cons.mp hop with h | hop
  · subst h; exact divOp_noIdx
  rcases List.mem_cons.mp hop with h | hop
  · subst h; exact flipOp_noIdx
  · simp at hop

theorem palette_inv_noIdx : ∀ op ∈ [addOp, mulOp, flipOp], Op.noIdx op := by
  intro op hop
  rcases List.mem_cons.mp hop with h | hop
  · subst h; exact addOp_noIdx
  rcases List.mem_cons.mp hop with h | hop
  · subst h; exact mulOp_noIdx
  rcases List.mem_cons.mp hop with h | hop
  · subst h; exact flipOp_noIdx
  · simp at hop

/-- Every schedule pair drawn by `solve_seq`'s zipped enumeration is a pair
of palette schedules of length `len(s) - 1`, so `next_item` cannot raise an
`IndexError` on it. -/
theorem solve_pairs_no_index (s : List Int) (h2 : 2 ≤ s.length) :
    ∀ p ∈ (productN [subOp, divOp, flipOp] (s.length - 1)).zip
        (productN [addOp, mulOp, flipOp] (s.length - 1)),
      next_item s (.list p.1) (.list p.2) ≠ .error .index := by
  intro p hp
  obtain ⟨hp1, hp2⟩ := List.of_mem_zip hp
  exact next_item_no_index s p.1 p.2 h2
    (mem_productN_length _ _ _ hp1)
    (mem_productN_length _ _ _ hp2)
    (fun op hop => palette_noIdx op (mem_productN_mem _ _ _ hp1 op hop))
    (fun op hop => palette_inv_noIdx op (mem_productN_mem _ _ _ hp2 op hop))

/-! ### Claims -/

set_option maxRecDepth 10000

/-- Claim C1 (the code contradicts its own test): on `[1, 2, 6, 24]`,
`solve_seq` actually returns the eight-element set
`{-96, -24, 6, 28, 67, 96, 98, 120}`, not the four-element set
`{67, 96, 98, 120}` asserted by the module's own unit test
`test_find_solutions` and by the spec's Scenario 6.  Schedules that use
`flip` raise no exception, so their predictions are never discarded; for
example the schedule `(sub, sub, flip)` paired with `(add, add, flip)`
succeeds with the extra prediction `28`. -/
theorem solve_seq_scenario6_actual :
    solve_seq [1, 2, 6, 24] = .ok {-96, -24, 6, 28, 67, 96, 98, 120} ∧
    solve_seq [1, 2, 6, 24] ≠ .ok {67, 96, 98, 120} ∧
    next_item [1, 2, 6, 24] (.list [subOp, subOp, flipOp])
      (.list [addOp, addOp, flipOp]) = .ok 28 := by decide

/-- Claim C2: with `diff(a,b) = b - a` and `diff_inverse(a,b) = b + a`,
the table for `[6, 9, 2, 5]` reduces through `[3, -7, 3]`, `[-10, 10]` to
the single-element row `[20]`, and walking the inverses back up yields
`next_item([6,9,2,5], diff, diff_inverse) = 38`. -/
theorem next_item_scenario1 :
    get_subseqs [6, 9, 2, 5] (.single subOp) = .ok [[3, -7, 3], [-10, 10], [20]] ∧
    next_item [6, 9, 2, 5] (.single subOp) (.single addOp) = .ok 38 := by decide

/-- Claim C3: `solve_seq`'s zip of two independently enumerated Cartesian
products equals the spec's single product of palette tags mapped through
the element-wise inverse lookup, and a value is in the returned set exactly
when some palette schedule's `next_item` run succeeds with it. -/
theorem solve_seq_enumeration (s : List Int) (h2 : 2 ≤ s.length) :
    solve_seq s = solve_spec s ∧
    ∀ A, solve_seq s = .ok A → ∀ v,
      (v ∈ A ↔ ∃ l ∈ productN [PalOp.sub, PalOp.div, PalOp.flip] (s.length - 1),
        next_item s (.list (l.map PalOp.op)) (.list (l.map PalOp.inv)) = .ok v) := by
  refine ⟨solve_seq_eq_solve_spec s, ?_⟩
  intro A hA v
  have hA' : solve_spec s = .ok A := by
    rw [← solve_seq_eq_solve_spec s]
    exact hA
  unfold solve_spec at hA'
  rw [solve_loop_mem s _ ∅ A v hA']
  simp only [Finset.not_mem_empty, false_or]
  constructor
  · rintro ⟨p, hp, hpv⟩
    obtain ⟨l, hl, hpl⟩ := List.mem_map.mp hp
    subst hpl
    exact ⟨l, hl, hpv⟩
  · rintro ⟨l, hl, hlv⟩
    exact ⟨(l.map PalOp.op, l.map PalOp.inv), List.mem_map.mpr ⟨l, hl, rfl⟩, hlv⟩

theorem solve_seq_enumeration_witness :
    solve_seq [1, 2, 6, 24] = solve_spec [1, 2, 6, 24] ∧
    ((120 : Int) ∈ ({-96, -24, 6, 28, 67, 96, 98, 120} : Finset Int) ↔
      ∃ l ∈ productN [PalOp.sub, PalOp.div, PalOp.flip]
          (([1, 2, 6, 24] : List Int).length - 1),
        next_item [1, 2, 6, 24] (.list (l.map PalOp.op))
          (.list (l.map PalOp.inv)) = .ok 120) :=
  ⟨(solve_seq_enumeration [1, 2, 6, 24] (by decide)).1,
   (solve_seq_enumeration [1, 2, 6, 24] (by decide)).2
     {-96, -24, 6, 28, 67, 96, 98, 120} (by decide) 120⟩

/-- Claim C4 (counterexample): `flip` is not its own inverse in general:
at `a = 1`, `b = 0`, `flip(1, flip(1, 0)) = -1 ≠ 0`. -/
theorem flip_self_inverse_counterexample :
    ¬ (flipFn 1 (flipFn 1 0) = 0) := by decide

/-- Claim C4 (amended): `flip(a, flip(a, b)) = b` holds exactly when
`a = 0` or `b = -a`; when `a ≠ 0` the result is always `-a`, so `flip` is
not a true mathematical inverse in the general case. -/
theorem flip_self_inverse_iff (a b : Int) :
    flipFn a (flipFn a b) = b ↔ a = 0 ∨ b = -a := by
  constructor
  · intro hh
    by_cases h : a = 0
    · exact Or.inl h
    · right
      simp only [flipFn, if_neg, ne_eq, h, not_false_iff, if_true, if_pos] at hh
      omega
  · rintro (h | h)
    · subst h
      simp [flipFn]
    · subst h
      by_cases h : a = 0 <;> simp [flipFn, h]

/-- Claim C5: for a sequence of length at least 2, `solve_seq` returns
normally: the only exception any palette schedule can raise is
`ZeroDivisionError`, which the solver catches and skips, and every member
of the returned set is the successful prediction of some enumerated
schedule pair. -/
theorem solve_seq_total (s : List Int) (h2 : 2 ≤ s.length) :
    ∃ A, solve_seq s = .ok A ∧
      ∀ v ∈ A, ∃ p ∈ (productN [subOp, divOp, flipOp] (s.length - 1)).zip
          (productN [addOp, mulOp, flipOp] (s.length - 1)),
        next_item s (.list p.1) (.list p.2) = .ok v := by
  obtain ⟨A, hA⟩ := solve_loop_ok s
    ((productN [subOp, divOp, flipOp] (s.length - 1)).zip
      (productN [addOp, mulOp, flipOp] (s.length - 1))) ∅
    (solve_pairs_no_index s h2)
  refine ⟨A, hA, ?_⟩
  intro v hv
  have := (solve_loop_mem s _ ∅ A v hA).mp hv
  simpa using this

theorem solve_seq_total_witness :
    (2 ≤ ([0, 0] : List Int).length) ∧
    ∃ A, solve_seq [0, 0] = .ok A ∧
      ∀ v ∈ A, ∃ p ∈ (productN [subOp, divOp, flipOp]
            (([0, 0] : List Int).length - 1)).zip
          (productN [addOp, mulOp, flipOp] (([0, 0] : List Int).length - 1)),
        next_item [0, 0] (.list p.1) (.list p.2) = .ok v :=
  ⟨by decide, solve_seq_total [0, 0] (by decide)⟩

/-- Claim C6: a table built from a sequence of length at least 2 is
non-empty, its final row is constant or has at most one element, and every
earlier row is non-constant with more than one element. -/
theorem table_terminal_shape (s : List Int) (sch : Schedule)
    (rows : List (List Int)) (h2 : 2 ≤ s.length)
    (hok : get_subseqs s sch = .ok rows) :
    rows ≠ [] ∧
    (∀ lastRow, rows.getLast? = some lastRow →
      is_constant lastRow = true ∨ lastRow.length ≤ 1) ∧
    (∀ i, i + 1 < rows.length →
      is_constant (rows.getD i []) = false ∧ 1 < (rows.getD i []).length) := by
  obtain ⟨op0, first, rest, _, hsub0, hloop, hrows⟩ :=
    get_subseqs_ok_inv s sch rows h2 hok
  subst hrows
  obtain ⟨_, hgood, _, _⟩ := get_subseqs_loop_shape (sch.expand (s.length - 1))
    first.length first 1 rest (Nat.le_refl _) hloop
  exact ⟨by simp, rowsGood_getLast rest first hgood, rowsGood_before rest first hgood⟩

theorem table_terminal_shape_witness :
    (2 ≤ ([1, 2, 4] : List Int).length) ∧
    get_subseqs [1, 2, 4] (.single subOp) = .ok [[1, 2], [1]] ∧
    (([[1, 2], [1]] : List (List Int)) ≠ [] ∧
    (∀ lastRow, ([[1, 2], [1]] : List (List Int)).getLast? = some lastRow →
      is_constant lastRow = true ∨ lastRow.length ≤ 1) ∧
    (∀ i, i + 1 < ([[1, 2], [1]] : List (List Int)).length →
      is_constant (([[1, 2], [1]] : List (List Int)).getD i []) = false ∧
        1 < (([[1, 2], [1]] : List (List Int)).getD i []).length)) :=
  ⟨by decide, by decide,
   table_terminal_shape [1, 2, 4] (.single subOp) [[1, 2], [1]]
     (by decide) (by decide)⟩

/-- Claim C7: in every table `get_subseqs` returns, row 0 has length
`len(s) - 1`, each later row is exactly one element shorter than the row
above it, and no row is empty. -/
theorem table_row_lengths (s : List Int) (sch : Schedule)
    (rows : List (List Int)) (hok : get_subseqs s sch = .ok rows) :
    (∀ r0, rows.head? = some r0 → r0.length = s.length - 1) ∧
    (∀ i, i + 1 < rows.length →
      (rows.getD (i + 1) []).length + 1 = (rows.getD i []).length) ∧
    (∀ r ∈ rows, 1 ≤ r.length) := by
  by_cases h2 : s.length < 2
  · rw [get_subseqs_nil s sch h2] at hok
    simp only [Except.ok.injEq] at hok
    subst hok
    refine ⟨by simp, by simp, by simp⟩
  · push_neg at h2
    obtain ⟨op0, first, rest, _, hsub0, hloop, hrows⟩ :=
      get_subseqs_ok_inv s sch rows h2 hok
    subst hrows
    have hflen := get_subseq_length s op0 first hsub0
    obtain ⟨hch, _, _, hne⟩ := get_subseqs_loop_shape (sch.expand (s.length - 1))
      first.length first 1 rest (Nat.le_refl _) hloop
    refine ⟨?_, chain_getD rest first hch, ?_⟩
    · intro r0 hr0
      simp only [List.head?_cons, Option.some.injEq] at hr0
      subst hr0
      exact hflen
    · intro r hr
      rcases List.mem_cons.mp hr with hr | hr
      · subst hr; omega
      · exact hne (by omega) r hr

theorem table_row_lengths_witness :
    get_subseqs [2, 4, 8] (.single divOp) = .ok [[2, 2]] ∧
    ((∀ r0, ([[2, 2]] : List (List Int)).head? = some r0 →
      r0.length = ([2, 4, 8] : List Int).length - 1) ∧
    (∀ i, i + 1 < ([[2, 2]] : List (List Int)).length →
      (([[2, 2]] : List (List Int)).getD (i + 1) []).length + 1 =
        (([[2, 2]] : List (List Int)).getD i []).length) ∧
    (∀ r ∈ ([[2, 2]] : List (List Int)), 1 ≤ r.length)) :=
  ⟨by decide, table_row_lengths [2, 4, 8] (.single divOp) [[2, 2]] (by decide)⟩

/-- Claim C8: on a sequence with fewer than two elements, `get_subseqs`
returns the empty table, for any schedule. -/
theorem build_table_short (s : List Int) (sch : Schedule) (h : s.length < 2) :
    get_subseqs s sch = .ok [] :=
  get_subseqs_nil s sch h

theorem build_table_short_witness :
    (([5] : List Int).length < 2) ∧
    get_subseqs [5] (.single subOp) = .ok [] :=
  ⟨by decide, build_table_short [5] (.single subOp) (by decide)⟩

/-- Claim C9: on a sequence with fewer than two elements, `next_item`
always fails with an `IndexError`: the rebuilt table is empty and the seed
`ss[-1][-1]` indexes into it. -/
theorem next_item_short (s : List Int) (ops invops : Schedule)
    (h : s.length < 2) :
    next_item s ops invops = .error .index := by
  unfold next_item
  rw [get_subseqs_nil s ops h]
  simp [lastE]

theorem next_item_short_witness :
    (([3] : List Int).length < 2) ∧
    next_item [3] (.single subOp) (.single addOp) = .error .index :=
  ⟨by decide, next_item_short [3] (.single subOp) (.single addOp) (by decide)⟩

/-- Claim C10: for a sequence of length at least 2 and a schedule that is a
single operation or a list of length `len(s) - 1` (of operations that raise
no `IndexError` themselves), `get_subseqs` never hits an out-of-range
schedule index, and the table holds at most `len(s) - 1` rows. -/
theorem schedule_access_safe (s : List Int) (sch : Schedule)
    (h2 : 2 ≤ s.length)
    (hlen : (sch.expand (s.length - 1)).length = s.length - 1)
    (hops : ∀ op ∈ sch.expand (s.length - 1), Op.noIdx op) :
    get_subseqs s sch ≠ .error .index ∧
    ∀ rows, get_subseqs s sch = .ok rows → rows.length ≤ s.length - 1 := by
  refine ⟨get_subseqs_no_index s sch hlen hops, ?_⟩
  intro rows hok
  obtain ⟨op0, first, rest, _, hsub0, hloop, hrows⟩ :=
    get_subseqs_ok_inv s sch rows h2 hok
  subst hrows
  have hflen := get_subseq_length s op0 first hsub0
  obtain ⟨_, _, hcnt, _⟩ := get_subseqs_loop_shape (sch.expand (s.length - 1))
    first.length first 1 rest (Nat.le_refl _) hloop
  simp only [List.length_cons]
  omega

theorem schedule_access_safe_witness :
    (2 ≤ ([1, 2, 4] : List Int).length) ∧
    get_subseqs [1, 2, 4] (.list [subOp, mulOp]) ≠ .error .index ∧
    ∀ rows, get_subseqs [1, 2, 4] (.list [subOp, mulOp]) = .ok rows →
      rows.length ≤ ([1, 2, 4] : List Int).length - 1 :=
  ⟨by decide,
   schedule_access_safe [1, 2, 4] (.list [subOp, mulOp]) (by decide) (by rfl)
     (by
       intro op hop
       rcases List.mem_cons.mp hop with h | hop
       · subst h; exact subOp_noIdx
       rcases List.mem_cons.mp hop with h | hop
       · subst h; exact mulOp_noIdx
       · simp at hop)⟩

end Extrapolate
